import Mathlib

/-!
Verification development for the telegram proxy publisher pipeline
(`src/main.py`).  The Python program is shallowly embedded below:

* `cleanString`       embeds `ProxyProcessor._clean_string` (line 325);
* `sanitizeRecord`    embeds steps 1-3 of `ProxyProcessor.find_new_proxies`
  (lines 338-357): clean the secret, clean the pre-existing `tg_link`,
  rebuild `tg_link` from `ip`/`port`/`secret` when all three are truthy;
* `findNewProxies`    embeds the whole of `find_new_proxies`
  (lines 331-370), the archive filter plus in-run deduplication;
* `isTimeExceeded`    embeds `RuntimeManager.is_time_exceeded` (lines 159-168);
* `postChunk`/`postAll` embed `TelegramPoster._post_chunk_with_qrcodes`
  and `TelegramPoster.post_all` (lines 392-518), with the network and the
  QR library abstracted into outcome oracles and the observable behaviour
  (polls, chunk attempts, sleeps) recorded as an event trace;
* `mergeArchive`/`updateArchiveRun` embed `ArchiveManager.update_archive`
  (lines 531-556), with the file-system effects recorded as an `FsOp` trace.

Python dictionaries holding proxy records are embedded as the structure
`ProxyRec` with `Option`-valued fields (a missing key is `none`); Python
truthiness of the string/int fields is `strTruthy`/`natTruthy`.
Passthrough fields of the records that no modelled code reads are omitted.
-/

namespace TGPub

/-- The forbidden characters of `ProxyProcessor.invalid_chars_pattern`
(`r'[@!#$%^&*()+:"\'\[\]{}]'`), given by their code points. -/
def invalidChars : List Char :=
  [64, 33, 35, 36, 37, 94, 38, 42, 40, 41, 43, 58, 34, 39, 91, 93, 123, 125].map Char.ofNat

/-- `ProxyProcessor._clean_string`: delete every forbidden character. -/
def cleanString (s : String) : String :=
  String.mk (s.data.filter (fun c => !(invalidChars.contains c)))

/-- Python truthiness of an optional string field: present and non-empty. -/
def strTruthy : Option String → Bool
  | none => false
  | some s => s != ""

/-- Python truthiness of an optional integer field: present and non-zero. -/
def natTruthy : Option Nat → Bool
  | none => false
  | some n => n != 0

/-- A proxy record, the dictionary shape flowing through the pipeline.
A field whose key is missing from the Python dict is `none`. -/
structure ProxyRec where
  ip : Option String := none
  port : Option Nat := none
  secret : Option String := none
  tg_link : Option String := none
  country_name : Option String := none
  country_code : Option String := none
  country_flag : Option String := none
  deriving DecidableEq

/-- The canonical deep link rebuilt at line 354 of `find_new_proxies`:
`f"tg://proxy?server={ip}&port={port}&secret={secret}"`. -/
def rebuiltLink (ip : String) (port : Nat) (secret : String) : String :=
  "tg://proxy?server=" ++ ip ++ "&port=" ++ toString port ++ "&secret=" ++ secret

/-- Step 1 of `find_new_proxies` (lines 340-342): clean the `secret`
field when it is truthy. -/
def cleanSecretStep (p : ProxyRec) : ProxyRec :=
  if strTruthy p.secret then { p with secret := some (cleanString (p.secret.getD "")) } else p

/-- Step 2 of `find_new_proxies` (lines 344-347): clean the pre-existing
`tg_link` field when it is truthy. -/
def cleanLinkStep (p : ProxyRec) : ProxyRec :=
  if strTruthy p.tg_link then { p with tg_link := some (cleanString (p.tg_link.getD "")) } else p

/-- Step 3 of `find_new_proxies` (lines 349-357): when `ip`, `port` and the
(already cleaned) `secret` are all truthy, overwrite `tg_link` with the
rebuilt canonical link.  The source assigns only when the rebuilt value
differs from the current one, which leaves the same record either way. -/
def rebuildLinkStep (p : ProxyRec) : ProxyRec :=
  if strTruthy p.ip && natTruthy p.port && strTruthy p.secret then
    let rebuilt := rebuiltLink (p.ip.getD "") (p.port.getD 0) (p.secret.getD "")
    if p.tg_link = some rebuilt then p else { p with tg_link := some rebuilt }
  else p

/-- Steps 1-3 of `find_new_proxies` applied to one record (lines 338-357),
in source order. -/
def sanitizeRecord (p : ProxyRec) : ProxyRec :=
  rebuildLinkStep (cleanLinkStep (cleanSecretStep p))

/-- The loop of `find_new_proxies` (lines 338-367): sanitize each record,
skip it when the final `tg_link` is falsy, and keep it when its link is in
neither the archive's link set nor the links accepted earlier in this run. -/
def findAux (archived : List String) (seen : List String) : List ProxyRec → List ProxyRec
  | [] => []
  | p :: ps =>
    let q := sanitizeRecord p
    match q.tg_link with
    | none => findAux archived seen ps
    | some l =>
      if l = "" then findAux archived seen ps
      else if decide (l ∈ archived) || decide (l ∈ seen) then findAux archived seen ps
      else q :: findAux archived (l :: seen) ps

/-- `ProxyProcessor.find_new_proxies`, given the archive's link set. -/
def findNewProxies (archived : List String) (ps : List ProxyRec) : List ProxyRec :=
  findAux archived [] ps

/-- `ProxyProcessor._load_archive` (line 318) restricted to a parsed archive:
the truthy `tg_link` values of the archive records
(`{proxy.get('tg_link') for proxy in archive_data if proxy.get('tg_link')}`;
the Python set is embedded as a list, membership is what the code uses). -/
def archiveLinks (rs : List ProxyRec) : List String :=
  rs.filterMap (fun p => match p.tg_link with
    | none => none
    | some s => if s = "" then none else some s)

/-- The cleaned secret of a record: what the `secret` field holds after
step 1 (a missing secret is treated as the empty string). -/
def cleanedSecret (p : ProxyRec) : String :=
  cleanString (p.secret.getD "")

theorem cleanString_empty : cleanString "" = "" := rfl

@[simp] theorem cleanSecretStep_ip (p : ProxyRec) : (cleanSecretStep p).ip = p.ip := by
  unfold cleanSecretStep; split <;> rfl

@[simp] theorem cleanSecretStep_port (p : ProxyRec) : (cleanSecretStep p).port = p.port := by
  unfold cleanSecretStep; split <;> rfl

@[simp] theorem cleanSecretStep_tg_link (p : ProxyRec) : (cleanSecretStep p).tg_link = p.tg_link := by
  unfold cleanSecretStep; split <;> rfl

@[simp] theorem cleanLinkStep_ip (p : ProxyRec) : (cleanLinkStep p).ip = p.ip := by
  unfold cleanLinkStep; split <;> rfl

@[simp] theorem cleanLinkStep_port (p : ProxyRec) : (cleanLinkStep p).port = p.port := by
  unfold cleanLinkStep; split <;> rfl

@[simp] theorem cleanLinkStep_secret (p : ProxyRec) : (cleanLinkStep p).secret = p.secret := by
  unfold cleanLinkStep; split <;> rfl

/-- After step 1 the secret field's truthiness is exactly
"the cleaned secret is non-empty". -/
theorem strTruthy_cleanSecretStep (p : ProxyRec) :
    strTruthy (cleanSecretStep p).secret = (cleanedSecret p != "") := by
  rcases hs : p.secret with _ | s
  · simp [cleanSecretStep, strTruthy, cleanedSecret, hs, cleanString_empty]
  · by_cases h : s = ""
    · simp [cleanSecretStep, strTruthy, cleanedSecret, hs, h, cleanString_empty]
    · simp [cleanSecretStep, strTruthy, cleanedSecret, hs, h]

/-- The value of the secret field after step 1, when the cleaned secret is
non-empty, is the cleaned secret. -/
theorem cleanSecretStep_secret_getD (p : ProxyRec) (h : cleanedSecret p ≠ "") :
    (cleanSecretStep p).secret.getD "" = cleanedSecret p := by
  rcases hs : p.secret with _ | s
  · exact absurd (by simp [cleanedSecret, hs, cleanString_empty]) h
  · by_cases he : s = ""
    · exact absurd (by simp [cleanedSecret, hs, he, cleanString_empty]) h
    · simp [cleanSecretStep, strTruthy, cleanedSecret, hs, he]

/-- When the rebuild condition holds, step 3 sets `tg_link` to the rebuilt
canonical link. -/
theorem rebuildLinkStep_tg_link_of_cond (p : ProxyRec)
    (h : (strTruthy p.ip && natTruthy p.port && strTruthy p.secret) = true) :
    (rebuildLinkStep p).tg_link
      = some (rebuiltLink (p.ip.getD "") (p.port.getD 0) (p.secret.getD "")) := by
  unfold rebuildLinkStep
  rw [if_pos h]
  by_cases heq : p.tg_link = some (rebuiltLink (p.ip.getD "") (p.port.getD 0) (p.secret.getD ""))
  · rw [if_pos heq]; exact heq
  · simp [heq]

/-- When the rebuild condition fails, step 3 leaves the record unchanged. -/
theorem rebuildLinkStep_of_not_cond (p : ProxyRec)
    (h : (strTruthy p.ip && natTruthy p.port && strTruthy p.secret) = false) :
    rebuildLinkStep p = p := by
  unfold rebuildLinkStep
  rw [if_neg (by simp [h])]

/-- C1.  For every record whose `ip`, `port` and cleaned `secret` are all
truthy (present and non-empty), sanitization sets `tg_link` to exactly
`tg://proxy?server=<ip>&port=<port>&secret=<cleaned secret>`, whatever link
value the record carried on input. -/
theorem c1_sanitize_rebuilds_canonical_link (p : ProxyRec)
    (hip : strTruthy p.ip = true) (hport : natTruthy p.port = true)
    (hsec : cleanedSecret p ≠ "") :
    (sanitizeRecord p).tg_link
      = some (rebuiltLink (p.ip.getD "") (p.port.getD 0) (cleanedSecret p)) := by
  unfold sanitizeRecord
  have hcond : (strTruthy (cleanLinkStep (cleanSecretStep p)).ip
      && natTruthy (cleanLinkStep (cleanSecretStep p)).port
      && strTruthy (cleanLinkStep (cleanSecretStep p)).secret) = true := by
    simp only [cleanLinkStep_ip, cleanLinkStep_port, cleanLinkStep_secret,
      cleanSecretStep_ip, cleanSecretStep_port, strTruthy_cleanSecretStep]
    simp [hip, hport, hsec]
  rw [rebuildLinkStep_tg_link_of_cond _ hcond]
  simp only [cleanLinkStep_ip, cleanLinkStep_port, cleanLinkStep_secret,
    cleanSecretStep_ip, cleanSecretStep_port]
  rw [cleanSecretStep_secret_getD p hsec]

/-- Witness for C1 at a concrete record: secret `"abc@!"` cleans to
`"abc"` and the junk input link is overwritten. -/
theorem c1_witness :
    (strTruthy (ProxyRec.mk (some "1.2.3.4") (some 443) (some "abc@!") (some "junk") none none none).ip = true
      ∧ natTruthy (ProxyRec.mk (some "1.2.3.4") (some 443) (some "abc@!") (some "junk") none none none).port = true
      ∧ cleanedSecret (ProxyRec.mk (some "1.2.3.4") (some 443) (some "abc@!") (some "junk") none none none) ≠ "")
    ∧ (sanitizeRecord (ProxyRec.mk (some "1.2.3.4") (some 443) (some "abc@!") (some "junk") none none none)).tg_link
      = some (rebuiltLink "1.2.3.4" 443 "abc") := by
  refine ⟨⟨by decide, by decide, by decide⟩, ?_⟩
  have h := c1_sanitize_rebuilds_canonical_link
    (ProxyRec.mk (some "1.2.3.4") (some 443) (some "abc@!") (some "junk") none none none)
    (by decide) (by decide) (by decide)
  simpa using h

/-- Every record in the output of `find_new_proxies` has a truthy
`tg_link`: the loop skips a record whose final link is falsy. -/
theorem findAux_mem_truthy (archived : List String) :
    ∀ (ps : List ProxyRec) (seen : List String) (q : ProxyRec),
      q ∈ findAux archived seen ps → strTruthy q.tg_link = true := by
  intro ps
  induction ps with
  | nil => intro seen q h; simp [findAux] at h
  | cons p ps ih =>
    intro seen q h
    rcases hl : (sanitizeRecord p).tg_link with _ | l
    · simp only [findAux, hl] at h
      exact ih seen q h
    · simp only [findAux, hl] at h
      by_cases he : l = ""
      · rw [if_pos he] at h; exact ih seen q h
      · rw [if_neg he] at h
        by_cases hm : (decide (l ∈ archived) || decide (l ∈ seen)) = true
        · rw [if_pos hm] at h; exact ih seen q h
        · rw [if_neg hm] at h
          rcases List.mem_cons.mp h with rfl | h
          · simp [strTruthy, hl, he]
          · exact ih (l :: seen) q h

/-- C2 fails on the code: a record with no `ip` (and no `port`, no
`secret`) that carries the clean non-empty link `"zzz"` survives
`find_new_proxies` unchanged, contradicting the claim that such records
are excluded from the output. -/
theorem c2_counterexample :
    (ProxyRec.mk none none none (some "zzz") none none none).ip = none
    ∧ findNewProxies [] [ProxyRec.mk none none none (some "zzz") none none none]
      = [ProxyRec.mk none none none (some "zzz") none none none] := by
  constructor
  · rfl
  · decide

/-- C2 amended.  A record missing `ip`, `port`, or whose cleaned secret is
empty gets no rebuilt canonical link; it is excluded from the output of
`find_new_proxies` when, in addition, its cleaned pre-existing `tg_link`
is empty or absent (otherwise the cleaned input link is kept and the
record can survive).  Every record in the output has a truthy link. -/
theorem c2_amended (archived : List String) (ps : List ProxyRec) (q p : ProxyRec)
    (hmiss : ¬(strTruthy p.ip = true ∧ natTruthy p.port = true ∧ cleanedSecret p ≠ ""))
    (hlink : cleanString (p.tg_link.getD "") = "") :
    strTruthy (sanitizeRecord p).tg_link = false
    ∧ sanitizeRecord p ∉ findNewProxies archived ps
    ∧ (q ∈ findNewProxies archived ps → strTruthy q.tg_link = true) := by
  have hfalsy : strTruthy (sanitizeRecord p).tg_link = false := by
    have hcond : (strTruthy (cleanLinkStep (cleanSecretStep p)).ip
        && natTruthy (cleanLinkStep (cleanSecretStep p)).port
        && strTruthy (cleanLinkStep (cleanSecretStep p)).secret) = false := by
      simp only [cleanLinkStep_ip, cleanLinkStep_port, cleanLinkStep_secret,
        cleanSecretStep_ip, cleanSecretStep_port, strTruthy_cleanSecretStep]
      by_cases h1 : strTruthy p.ip
      · by_cases h2 : natTruthy p.port
        · have h3 : cleanedSecret p = "" := by
            by_contra h3
            exact hmiss ⟨h1, h2, h3⟩
          simp [h3]
        · simp only [Bool.not_eq_true] at h2
          simp [h2]
      · simp only [Bool.not_eq_true] at h1
        simp [h1]
    have hlink2 : strTruthy (cleanLinkStep (cleanSecretStep p)).tg_link = false := by
      rcases ht : p.tg_link with _ | s
      · unfold cleanLinkStep
        simp [strTruthy, ht]
      · by_cases he : s = ""
        · unfold cleanLinkStep
          simp [strTruthy, ht, he]
        · have hcs : cleanString s = "" := by
            rw [ht] at hlink
            simpa using hlink
          unfold cleanLinkStep
          simp [strTruthy, ht, he, hcs]
    rw [sanitizeRecord, rebuildLinkStep_of_not_cond _ hcond]
    exact hlink2
  refine ⟨hfalsy, ?_, findAux_mem_truthy archived ps [] q⟩
  intro hmem
  have := findAux_mem_truthy archived ps [] _ hmem
  rw [hfalsy] at this
  exact Bool.false_ne_true this

/-- Witness for C2's amended theorem: a record with no `ip` whose link
`"@@"` cleans to the empty string is dropped. -/
theorem c2_amended_witness :
    (¬(strTruthy (ProxyRec.mk none (some 1) (some "s") (some "@@") none none none).ip = true
        ∧ natTruthy (ProxyRec.mk none (some 1) (some "s") (some "@@") none none none).port = true
        ∧ cleanedSecret (ProxyRec.mk none (some 1) (some "s") (some "@@") none none none) ≠ "")
      ∧ cleanString ((ProxyRec.mk none (some 1) (some "s") (some "@@") none none none).tg_link.getD "") = "")
    ∧ (strTruthy (sanitizeRecord (ProxyRec.mk none (some 1) (some "s") (some "@@") none none none)).tg_link = false
      ∧ sanitizeRecord (ProxyRec.mk none (some 1) (some "s") (some "@@") none none none)
          ∉ findNewProxies [] [ProxyRec.mk none (some 1) (some "s") (some "@@") none none none]
      ∧ (ProxyRec.mk none (some 1) (some "s") (some "@@") none none none
          ∈ findNewProxies [] [ProxyRec.mk none (some 1) (some "s") (some "@@") none none none]
          → strTruthy (ProxyRec.mk none (some 1) (some "s") (some "@@") none none none).tg_link = true)) :=
  ⟨⟨by decide, by decide⟩,
    c2_amended [] [ProxyRec.mk none (some 1) (some "s") (some "@@") none none none]
      (ProxyRec.mk none (some 1) (some "s") (some "@@") none none none)
      (ProxyRec.mk none (some 1) (some "s") (some "@@") none none none)
      (by decide) (by decide)⟩

/-- Modelled from the spec (section 4.2), the refinement target for the
deduplication contract: walk the candidates in order, keep the first
record carrying each link, and silently drop every later duplicate. -/
def dedupFirstAux (seen : List String) : List ProxyRec → List ProxyRec
  | [] => []
  | q :: qs =>
    match q.tg_link with
    | none => dedupFirstAux seen qs
    | some l =>
      if decide (l ∈ seen) then dedupFirstAux seen qs
      else q :: dedupFirstAux (l :: seen) qs

/-- The cleaned records that are usable (truthy final link) and whose link
is absent from the archive's link set. -/
def sanitizedCandidates (archived : List String) (ps : List ProxyRec) : List ProxyRec :=
  (ps.map sanitizeRecord).filter
    (fun q => strTruthy q.tg_link && !(decide (q.tg_link.getD "" ∈ archived)))

theorem findAux_eq_dedupFirst (archived : List String) :
    ∀ (ps : List ProxyRec) (seen : List String),
      findAux archived seen ps
        = dedupFirstAux seen ((ps.map sanitizeRecord).filter
            (fun q => strTruthy q.tg_link && !(decide (q.tg_link.getD "" ∈ archived)))) := by
  intro ps
  induction ps with
  | nil => intro seen; rfl
  | cons p ps ih =>
    intro seen
    simp only [List.map_cons, List.filter_cons]
    rcases hl : (sanitizeRecord p).tg_link with _ | l
    · rw [if_neg (by simp [strTruthy])]
      simp only [findAux, hl]
      exact ih seen
    · by_cases he : l = ""
      · rw [if_neg (by simp [strTruthy, he])]
        simp only [findAux, hl]
        rw [if_pos he]
        exact ih seen
      · by_cases ha : l ∈ archived
        · rw [if_neg (by simp [strTruthy, ha])]
          simp only [findAux, hl]
          rw [if_neg he, if_pos (by simp [ha])]
          exact ih seen
        · rw [if_pos (by simp [strTruthy, he, ha])]
          by_cases hs : l ∈ seen
          · simp only [findAux, hl]
            rw [if_neg he, if_pos (by simp [hs])]
            simp only [dedupFirstAux, hl]
            rw [if_pos (by simp [hs])]
            exact ih seen
          · simp only [findAux, hl]
            rw [if_neg he, if_neg (by simp [ha, hs])]
            simp only [dedupFirstAux, hl]
            rw [if_neg (by simp [hs])]
            exact congrArg _ (ih (l :: seen))

/-- C4.  `find_new_proxies` returns exactly the sanitized records whose
link is usable and absent from the archive, deduplicated first-wins in
fetch order; among same-run records sharing a link, the first is kept and
every later duplicate is dropped. -/
theorem c4_filter_refines_first_wins_dedup (archived : List String) (ps : List ProxyRec) :
    findNewProxies archived ps = dedupFirstAux [] (sanitizedCandidates archived ps) :=
  findAux_eq_dedupFirst archived ps []

/-- One Python dict assignment `d[k] = v` on a dict kept as an ordered
association list: replace in place when the key is present (keeping the
key's original position), append otherwise. -/
def dictInsert (k : Option String) (v : ProxyRec) :
    List (Option String × ProxyRec) → List (Option String × ProxyRec)
  | [] => [(k, v)]
  | e :: es => if e.1 = k then (k, v) :: es else e :: dictInsert k v es

/-- The dict comprehension `{p['tg_link']: p for p in updated_archive}` of
`ArchiveManager.update_archive` (line 549): keys in order of first
insertion, each key holding the last record inserted for it. -/
def buildByLink (rs : List ProxyRec) : List (Option String × ProxyRec) :=
  rs.foldl (fun d r => dictInsert r.tg_link r d) []

/-- Line 548-549 of `update_archive`:
`list({p['tg_link']: p for p in existing_proxies + posted_proxies}.values())`. -/
def mergeArchive (existing posted : List ProxyRec) : List ProxyRec :=
  (buildByLink (existing ++ posted)).map Prod.snd

theorem mem_keys_dictInsert (k k0 : Option String) (v : ProxyRec)
    (d : List (Option String × ProxyRec)) :
    k0 ∈ (dictInsert k v d).map Prod.fst ↔ k0 = k ∨ k0 ∈ d.map Prod.fst := by
  induction d with
  | nil => simp [dictInsert]
  | cons e es ih =>
    by_cases h : e.1 = k
    · rw [show dictInsert k v (e :: es) = (k, v) :: es from by
        simp only [dictInsert]; rw [if_pos h]]
      simp only [List.map_cons, List.mem_cons]
      subst h
      tauto
    · rw [show dictInsert k v (e :: es) = e :: dictInsert k v es from by
        simp only [dictInsert]; rw [if_neg h]]
      simp only [List.map_cons, List.mem_cons, ih]
      tauto

theorem nodup_keys_dictInsert (k : Option String) (v : ProxyRec)
    (d : List (Option String × ProxyRec)) (hd : (d.map Prod.fst).Nodup) :
    ((dictInsert k v d).map Prod.fst).Nodup := by
  induction d with
  | nil => simp [dictInsert]
  | cons e es ih =>
    rw [List.map_cons, List.nodup_cons] at hd
    by_cases h : e.1 = k
    · simp only [dictInsert, h, if_true, List.map_cons, List.nodup_cons]
      exact ⟨h ▸ hd.1, hd.2⟩
    · simp only [dictInsert, h, if_false, List.map_cons, List.nodup_cons]
      refine ⟨?_, ih hd.2⟩
      rw [mem_keys_dictInsert]
      rintro (h1 | h2)
      · exact h h1
      · exact hd.1 h2

theorem filter_eq_nil_of_not_mem_keys (k : Option String)
    (d : List (Option String × ProxyRec)) (h : k ∉ d.map Prod.fst) :
    d.filter (fun e => decide (e.1 = k)) = [] := by
  induction d with
  | nil => rfl
  | cons e es ih =>
    simp only [List.map_cons, List.mem_cons] at h
    push_neg at h
    rw [List.filter_cons, if_neg (by simpa using fun he => h.1 he.symm)]
    exact ih h.2

theorem filter_dictInsert_eq (k : Option String) (v : ProxyRec)
    (d : List (Option String × ProxyRec)) (hd : (d.map Prod.fst).Nodup) :
    (dictInsert k v d).filter (fun e => decide (e.1 = k)) = [(k, v)] := by
  induction d with
  | nil => simp [dictInsert]
  | cons e es ih =>
    rw [List.map_cons, List.nodup_cons] at hd
    by_cases h : e.1 = k
    · simp only [dictInsert, h, if_true]
      rw [List.filter_cons, if_pos (by simp)]
      rw [filter_eq_nil_of_not_mem_keys k es (h ▸ hd.1)]
    · simp only [dictInsert, h, if_false]
      rw [List.filter_cons, if_neg (by simpa using h)]
      exact ih hd.2

theorem filter_dictInsert_ne (k k0 : Option String) (v : ProxyRec)
    (d : List (Option String × ProxyRec)) (h : k0 ≠ k) :
    (dictInsert k v d).filter (fun e => decide (e.1 = k0))
      = d.filter (fun e => decide (e.1 = k0)) := by
  have hkk0 : ¬(k = k0) := fun hx => h hx.symm
  induction d with
  | nil =>
    simp only [dictInsert]
    rw [List.filter_cons, if_neg (by simpa using hkk0)]
  | cons e es ih =>
    by_cases he : e.1 = k
    · simp only [dictInsert]
      rw [if_pos he, List.filter_cons, List.filter_cons, if_neg (by simpa using hkk0),
        if_neg (by rw [he]; simpa using hkk0)]
    · simp only [dictInsert]
      rw [if_neg he, List.filter_cons, List.filter_cons]
      by_cases hk : e.1 = k0
      · rw [if_pos (by simpa using hk), if_pos (by simpa using hk), ih]
      · rw [if_neg (by simpa using hk), if_neg (by simpa using hk), ih]

theorem getLast?_cons_form {α : Type} (a : α) (xs : List α) :
    (a :: xs).getLast? = match xs.getLast? with
      | some y => some y
      | none => some a := by
  cases xs with
  | nil => rfl
  | cons b bs => rw [List.getLast?_cons_cons]; cases h : (b :: bs).getLast? with
    | none => simp at h
    | some y => rfl

/-- The entries of the dict built by folding `dictInsert` over `rs`
starting from `d`, restricted to one key: the key holds the last record of
`rs` carrying it, or keeps `d`'s entry when `rs` never mentions it. -/
theorem foldl_dictInsert_filter (l : Option String) :
    ∀ (rs : List ProxyRec) (d : List (Option String × ProxyRec)),
      (d.map Prod.fst).Nodup →
      ((rs.foldl (fun d r => dictInsert r.tg_link r d) d).filter (fun e => decide (e.1 = l)))
        = match (rs.filter (fun r => decide (r.tg_link = l))).getLast? with
          | some r => [(l, r)]
          | none => d.filter (fun e => decide (e.1 = l)) := by
  intro rs
  induction rs with
  | nil => intro d hd; rfl
  | cons r rs ih =>
    intro d hd
    rw [List.foldl_cons, List.filter_cons]
    have hd2 : ((dictInsert r.tg_link r d).map Prod.fst).Nodup :=
      nodup_keys_dictInsert _ _ _ hd
    by_cases hr : r.tg_link = l
    · rw [if_pos (by simpa using hr)]
      rw [ih _ hd2]
      rw [getLast?_cons_form]
      cases hx : (rs.filter (fun r => decide (r.tg_link = l))).getLast? with
      | some r2 => rfl
      | none =>
        subst hr
        rw [filter_dictInsert_eq _ _ _ hd]
    · rw [if_neg (by simpa using hr)]
      rw [ih _ hd2]
      cases hx : (rs.filter (fun r => decide (r.tg_link = l))).getLast? with
      | some r2 => rfl
      | none => rw [filter_dictInsert_ne _ _ _ _ (fun he => hr he.symm)]

theorem buildByLink_consistent (rs : List ProxyRec) :
    ∀ e ∈ buildByLink rs, e.2.tg_link = e.1 := by
  have main : ∀ (rs : List ProxyRec) (d : List (Option String × ProxyRec)),
      (∀ e ∈ d, e.2.tg_link = e.1) →
      ∀ e ∈ rs.foldl (fun d r => dictInsert r.tg_link r d) d, e.2.tg_link = e.1 := by
    intro rs
    induction rs with
    | nil => intro d hd; simpa using hd
    | cons r rs ih =>
      intro d hd
      rw [List.foldl_cons]
      refine ih _ ?_
      have ins : ∀ (k : Option String) (v : ProxyRec), v.tg_link = k →
          ∀ (d : List (Option String × ProxyRec)), (∀ e ∈ d, e.2.tg_link = e.1) →
          ∀ e ∈ dictInsert k v d, e.2.tg_link = e.1 := by
        intro k v hv d
        induction d with
        | nil => intro _ e he; simp [dictInsert] at he; simp [he, hv]
        | cons e0 es ih2 =>
          intro hd0 e he
          by_cases h0 : e0.1 = k
          · simp only [dictInsert, h0, if_true, List.mem_cons] at he
            rcases he with rfl | he
            · exact hv
            · exact hd0 _ (List.mem_cons_of_mem _ he)
          · simp only [dictInsert, h0, if_false, List.mem_cons] at he
            rcases he with rfl | he
            · exact hd0 _ (List.mem_cons_self _ _)
            · exact ih2 (fun e2 he2 => hd0 _ (List.mem_cons_of_mem _ he2)) _ he
      exact ins _ _ rfl _ hd
  exact main rs [] (by simp)

theorem map_snd_filter_of_consistent (l : Option String)
    (d : List (Option String × ProxyRec)) (hc : ∀ e ∈ d, e.2.tg_link = e.1) :
    (d.map Prod.snd).filter (fun r => decide (r.tg_link = l))
      = (d.filter (fun e => decide (e.1 = l))).map Prod.snd := by
  induction d with
  | nil => rfl
  | cons e es ih =>
    have he : e.2.tg_link = e.1 := hc _ (List.mem_cons_self _ _)
    have hes := fun e2 h2 => hc e2 (List.mem_cons_of_mem _ h2)
    rw [List.map_cons, List.filter_cons, List.filter_cons]
    by_cases h : e.1 = l
    · rw [if_pos (by simp only [decide_eq_true_eq, he]; exact h),
        if_pos (by simpa using h), List.map_cons, ih hes]
    · rw [if_neg (by simp only [decide_eq_true_eq, he]; exact h),
        if_neg (by simpa using h), ih hes]

/-- C5.  The archive merge concatenates existing and new records and
collapses by canonical link keeping the last occurrence: when a link is
present in the existing archive and carried by exactly one newly-posted
record, the merged archive holds exactly one record with that link, and it
is the newly-posted one. -/
theorem c5_merge_last_wins (existing posted : List ProxyRec) (l : String) (rNew : ProxyRec)
    (_hex : ∃ e ∈ existing, e.tg_link = some l)
    (hnew : posted.filter (fun r => decide (r.tg_link = some l)) = [rNew]) :
    (mergeArchive existing posted).filter (fun r => decide (r.tg_link = some l)) = [rNew] := by
  unfold mergeArchive
  rw [map_snd_filter_of_consistent _ _ (buildByLink_consistent _)]
  unfold buildByLink
  rw [foldl_dictInsert_filter (some l) (existing ++ posted) [] (by simp)]
  rw [List.filter_append, hnew]
  rw [List.getLast?_concat]
  rfl

/-- Witness for C5 at concrete records sharing the link `"tg://x"`: the
merged archive keeps the new record only. -/
theorem c5_witness :
    ((∃ e ∈ [ProxyRec.mk (some "1.1.1.1") (some 1) (some "s") (some "tg://x") none none none],
        e.tg_link = some "tg://x")
      ∧ [ProxyRec.mk (some "2.2.2.2") (some 2) (some "t") (some "tg://x") none none none].filter
          (fun r => decide (r.tg_link = some "tg://x"))
        = [ProxyRec.mk (some "2.2.2.2") (some 2) (some "t") (some "tg://x") none none none])
    ∧ (mergeArchive [ProxyRec.mk (some "1.1.1.1") (some 1) (some "s") (some "tg://x") none none none]
        [ProxyRec.mk (some "2.2.2.2") (some 2) (some "t") (some "tg://x") none none none]).filter
          (fun r => decide (r.tg_link = some "tg://x"))
      = [ProxyRec.mk (some "2.2.2.2") (some 2) (some "t") (some "tg://x") none none none] :=
  ⟨⟨by decide, by decide⟩,
    c5_merge_last_wins _ _ _ _
      ⟨ProxyRec.mk (some "1.1.1.1") (some 1) (some "s") (some "tg://x") none none none, by decide⟩
      (by decide)⟩

/-- File-system operations observable from `ArchiveManager.update_archive`,
in program order.  `renameReplace` (an atomic write-then-replace) never
occurs in the embedded code; the constructor exists so that the
write-then-replace property can be stated. -/
inductive FsOp where
  | mkdirParents (path : String)
  | readFile (path : String)
  | openWriteTruncate (path : String)
  | writeJson (path : String)
  | closeFile (path : String)
  | renameReplace (src dst : String)
  deriving DecidableEq

def FsOp.isRename : FsOp → Bool
  | .renameReplace _ _ => true
  | _ => false

/-- `ArchiveManager.update_archive` (lines 531-556) over an abstract disk.
`disk = none` models a missing archive file, `some rs` a readable one (an
unreadable file, treated as the empty list by the source, is not modelled
separately).  Returns the new disk content and the ordered trace of
file-system operations: with no posted records the function returns at
line 536 before touching the file; otherwise it makes the parent
directory, reads the existing archive when present, and writes the merged
archive by opening the archive file itself in truncating write mode
(`self.archive_path.open('w', ...)`, line 552). -/
def updateArchiveRun (path : String) (disk : Option (List ProxyRec))
    (posted : List ProxyRec) : Option (List ProxyRec) × List FsOp :=
  if posted = [] then (disk, [])
  else
    let existing := disk.getD []
    let merged := mergeArchive existing posted
    (some merged,
      [FsOp.mkdirParents path]
        ++ (match disk with | some _ => [FsOp.readFile path] | none => [])
        ++ [FsOp.openWriteTruncate path, FsOp.writeJson path, FsOp.closeFile path])

/-- C6 fails on the code: at a concrete archive state the write trace of
`update_archive` opens the archive file itself in truncating write mode
and performs no write-then-replace (`renameReplace`) at all. -/
theorem c6_counterexample :
    FsOp.openWriteTruncate "output/archive_proxies.json"
      ∈ (updateArchiveRun "output/archive_proxies.json"
          (some [ProxyRec.mk (some "1.1.1.1") (some 1) (some "s") (some "tg://x") none none none])
          [ProxyRec.mk (some "2.2.2.2") (some 2) (some "t") (some "tg://y") none none none]).2
    ∧ ((updateArchiveRun "output/archive_proxies.json"
          (some [ProxyRec.mk (some "1.1.1.1") (some 1) (some "s") (some "tg://x") none none none])
          [ProxyRec.mk (some "2.2.2.2") (some 2) (some "t") (some "tg://y") none none none]).2.all
        (fun op => ! op.isRename)) = true := by
  constructor
  · decide
  · decide

/-- C6 amended.  Persisting the merged archive edits the archive file in
place: whenever there are posted records the trace opens the archive path
itself in truncating write mode, and never performs a write-then-replace,
so a crash mid-write can corrupt previously-valid archive content. -/
theorem c6_amended_in_place_write (path : String) (disk : Option (List ProxyRec))
    (posted : List ProxyRec) (h : posted ≠ []) :
    FsOp.openWriteTruncate path ∈ (updateArchiveRun path disk posted).2
    ∧ ((updateArchiveRun path disk posted).2.all (fun op => ! op.isRename)) = true := by
  unfold updateArchiveRun
  rw [if_neg h]
  cases disk <;> simp [FsOp.isRename]

/-- Witness for C6's amended theorem at a concrete input. -/
theorem c6_amended_witness :
    ([ProxyRec.mk (some "2.2.2.2") (some 2) (some "t") (some "tg://y") none none none] ≠ ([] : List ProxyRec))
    ∧ (FsOp.openWriteTruncate "a.json"
        ∈ (updateArchiveRun "a.json" none
            [ProxyRec.mk (some "2.2.2.2") (some 2) (some "t") (some "tg://y") none none none]).2
      ∧ ((updateArchiveRun "a.json" none
            [ProxyRec.mk (some "2.2.2.2") (some 2) (some "t") (some "tg://y") none none none]).2.all
          (fun op => ! op.isRename)) = true) :=
  ⟨by decide,
    c6_amended_in_place_write "a.json" none
      [ProxyRec.mk (some "2.2.2.2") (some 2) (some "t") (some "tg://y") none none none]
      (by decide)⟩

/-- C7.  With an empty posted list `update_archive` is a no-op: the disk
content is unchanged and no file-system operation at all is performed (in
particular the archive is never opened for writing). -/
theorem c7_empty_posted_noop (path : String) (disk : Option (List ProxyRec)) :
    updateArchiveRun path disk [] = (disk, []) := by
  simp [updateArchiveRun]

/-- The state of `RuntimeManager`: start time, configured ceiling, and the
`time_exceeded` flag (line 157). -/
structure RuntimeState where
  startTime : Int
  maxSeconds : Int
  timeExceeded : Bool
  deriving DecidableEq

/-- `RuntimeManager.is_time_exceeded` (lines 159-168), with the current
clock value passed explicitly: report `true` at once when the flag is
already set, otherwise trip the flag exactly when the elapsed time
exceeds the ceiling. -/
def isTimeExceeded (now : Int) (s : RuntimeState) : Bool × RuntimeState :=
  if s.timeExceeded then (true, s)
  else if s.maxSeconds < now - s.startTime then (true, { s with timeExceeded := true })
  else (false, s)

/-- A sequence of calls to `is_time_exceeded` at the given clock values,
threading the manager's state; returns the list of results. -/
def runChecks (s : RuntimeState) : List Int → List Bool
  | [] => []
  | t :: ts =>
    let r := isTimeExceeded t s
    r.1 :: runChecks r.2 ts

theorem isTimeExceeded_true_state (now : Int) (s : RuntimeState)
    (h : (isTimeExceeded now s).1 = true) :
    (isTimeExceeded now s).2.timeExceeded = true := by
  unfold isTimeExceeded at h ⊢
  by_cases h1 : s.timeExceeded = true
  · rw [if_pos h1]; exact h1
  · rw [if_neg h1] at h ⊢
    by_cases h2 : s.maxSeconds < now - s.startTime
    · rw [if_pos h2]
    · rw [if_neg h2] at h
      exact absurd h (by simp)

theorem runChecks_of_flag (s : RuntimeState) (hs : s.timeExceeded = true) :
    ∀ ts : List Int, runChecks s ts = List.replicate ts.length true := by
  intro ts
  induction ts with
  | nil => rfl
  | cons t ts ih =>
    rw [runChecks]
    rw [show isTimeExceeded t s = (true, s) from by unfold isTimeExceeded; rw [if_pos hs]]
    rw [List.length_cons, List.replicate_succ]
    exact congrArg _ ih

/-- C8.  The time budget is a one-way latch: in any sequence of calls to
`is_time_exceeded`, once some call returns `true` every later call also
returns `true`, whatever the later clock values are. -/
theorem c8_time_budget_latch (s : RuntimeState) (ts : List Int) (i j : Nat)
    (hij : i ≤ j) (hj : j < (runChecks s ts).length)
    (hi : (runChecks s ts).getD i false = true) :
    (runChecks s ts).getD j false = true := by
  induction ts generalizing s i j with
  | nil => simp [runChecks] at hj
  | cons t ts ih =>
    rw [runChecks] at hj hi ⊢
    cases i with
    | zero =>
      have hres : (isTimeExceeded t s).1 = true := by simpa using hi
      have hflag := isTimeExceeded_true_state t s hres
      cases j with
      | zero => simpa using hres
      | succ j =>
        rw [List.getD_cons_succ]
        rw [runChecks_of_flag _ hflag ts]
        have hjlen : j < ts.length := by
          rw [List.length_cons] at hj
          rw [runChecks_of_flag _ hflag ts, List.length_replicate] at hj
          omega
        rw [List.getD_eq_getElem?_getD, List.getElem?_replicate, if_pos hjlen]
        rfl
    | succ i =>
      cases j with
      | zero => omega
      | succ j =>
        rw [List.getD_cons_succ] at hi ⊢
        exact ih _ i j (by omega) (by simpa using hj) hi

/-- Witness for C8: with a 5-second budget started at time 0, the call at
clock 10 trips the latch and the later call at clock 3 still reports
`true`. -/
theorem c8_witness :
    ((0 : Nat) ≤ 1 ∧ 1 < (runChecks (RuntimeState.mk 0 5 false) [10, 3]).length
      ∧ (runChecks (RuntimeState.mk 0 5 false) [10, 3]).getD 0 false = true)
    ∧ (runChecks (RuntimeState.mk 0 5 false) [10, 3]).getD 1 false = true :=
  ⟨⟨by decide, by decide, by decide⟩,
    c8_time_budget_latch (RuntimeState.mk 0 5 false) [10, 3] 0 1
      (by decide) (by decide) (by decide)⟩

/-- Outcome of the `sendMediaGroup` call of `_post_chunk_with_qrcodes`
(lines 427-434): an HTTP/request error (raised and caught), a 2xx response
whose body lacks `ok`/`result` (line 475), or a usable response. -/
inductive AlbumOutcome where
  | httpError
  | okNoResult
  | okResult
  deriving DecidableEq

/-- Outcome of the `sendMessage` reply call (lines 471-472): an
HTTP/request error (raised and caught), or success. -/
inductive ReplyOutcome where
  | httpError
  | ok
  deriving DecidableEq

/-- The external collaborators of `TelegramPoster`, abstracted as oracles:
the result of the k-th `is_time_exceeded` poll, the outcome of the album
send and of the reply send for each chunk index, and whether the QR
library succeeds on a given data string. -/
structure PostEnv where
  timeEx : Nat → Bool
  album : Nat → AlbumOutcome
  reply : Nat → ReplyOutcome
  qrOk : String → Bool

/-- `QRCodeGenerator.generate` (lines 179-200): no image for empty data,
otherwise the library may fail. -/
def qrGenerate (qrOk : String → Bool) (data : String) : Bool :=
  if data = "" then false else qrOk data

/-- The records of a chunk that contribute a media item (lines 403-416):
those with a truthy `tg_link` for which QR generation succeeds. -/
def mediaItems (env : PostEnv) (chunk : List ProxyRec) : List ProxyRec :=
  chunk.filter (fun p => strTruthy p.tg_link && qrGenerate env.qrOk (p.tg_link.getD ""))

/-- `TelegramPoster._post_chunk_with_qrcodes` (lines 392-483) for the
chunk at index `cidx`: `false` for an empty chunk or when no QR image was
produced (no API call at all); otherwise the album is sent, and the
function returns `true` only when that send succeeds with a usable result
AND the subsequent reply send also succeeds — both `raise_for_status`
calls sit in the same `try`, so a reply HTTP error is caught at line 479
and yields `False`. -/
def postChunk (env : PostEnv) (cidx : Nat) (chunk : List ProxyRec) : Bool :=
  if chunk = [] then false
  else if mediaItems env chunk = [] then false
  else match env.album cidx with
    | .httpError => false
    | .okNoResult => false
    | .okResult =>
      match env.reply cidx with
      | .httpError => false
      | .ok => true

/-- Observable events of `TelegramPoster.post_all`, in order: a poll of
`is_time_exceeded` with its result, an attempt to post the chunk at an
index with its outcome, and the inter-chunk sleep. -/
inductive PEvent where
  | poll (r : Bool)
  | attempt (i : Nat) (ok : Bool)
  | wait
  deriving DecidableEq

/-- The chunking `proxies_to_post[i:i + proxies_per_post]` of the loop
header at line 497.  A step of `0` (for which Python's `range` raises) is
mapped to no chunks. -/
def chunksOf (K : Nat) (l : List ProxyRec) : List (List ProxyRec) :=
  if K = 0 then []
  else if l = [] then []
  else l.take K :: chunksOf K (l.drop K)
termination_by l.length
decreasing_by
  rename_i hK hl
  have h1 : 0 < l.length := List.length_pos.mpr hl
  have h2 : 0 < K := Nat.pos_of_ne_zero hK
  simpa using Nat.sub_lt h1 h2

/-- The loop body of `post_all` (lines 497-515) over the remaining chunks:
`t` counts the polls already made, `c` is the current chunk index.  Each
iteration polls the time budget and breaks on `true`; a successful chunk
is appended whole to the posted list, and when it is not the last chunk
the budget is polled again (break on `true`) before sleeping; a failed
chunk is skipped with neither sleep nor extra poll. -/
def postAllAux (env : PostEnv) : Nat → Nat → List (List ProxyRec) → List ProxyRec × List PEvent
  | _, _, [] => ([], [])
  | t, c, chunk :: rest =>
    if env.timeEx t then ([], [PEvent.poll true])
    else if postChunk env c chunk then
      if rest = [] then (chunk, [PEvent.poll false, PEvent.attempt c true])
      else if env.timeEx (t + 1) then
        (chunk, [PEvent.poll false, PEvent.attempt c true, PEvent.poll true])
      else
        let next := postAllAux env (t + 2) (c + 1) rest
        (chunk ++ next.1,
          PEvent.poll false :: PEvent.attempt c true :: PEvent.poll false :: PEvent.wait :: next.2)
    else
      let next := postAllAux env (t + 1) (c + 1) rest
      (next.1, PEvent.poll false :: PEvent.attempt c false :: next.2)

/-- `TelegramPoster.post_all` (lines 485-518): an empty input returns at
line 490 with no poll; otherwise the chunk loop runs.  Returns the posted
records and the event trace. -/
def postAll (env : PostEnv) (K : Nat) (ps : List ProxyRec) : List ProxyRec × List PEvent :=
  if ps = [] then ([], []) else postAllAux env 0 0 (chunksOf K ps)

/-- `postChunk` succeeds exactly when the chunk is non-empty, produced at
least one QR image, the album send returned a usable result, and the
reply send succeeded. -/
theorem postChunk_eq_true_iff (env : PostEnv) (cidx : Nat) (chunk : List ProxyRec) :
    postChunk env cidx chunk = true
      ↔ chunk ≠ [] ∧ mediaItems env chunk ≠ []
        ∧ env.album cidx = AlbumOutcome.okResult ∧ env.reply cidx = ReplyOutcome.ok := by
  unfold postChunk
  by_cases h1 : chunk = []
  · simp [h1]
  · rw [if_neg h1]
    by_cases h2 : mediaItems env chunk = []
    · simp [h1, h2]
    · rw [if_neg h2]
      cases ha : env.album cidx <;> cases hr : env.reply cidx <;> simp [h1, h2, ha, hr]

theorem chunksOf_nil (K : Nat) : chunksOf K [] = [] := by
  rw [chunksOf]
  simp

theorem chunksOf_cons_eval (K : Nat) (hK : K ≠ 0) (a : ProxyRec) (l : List ProxyRec) :
    chunksOf K (a :: l) = (a :: l).take K :: chunksOf K ((a :: l).drop K) := by
  rw [chunksOf]
  rw [if_neg hK, if_neg (by simp)]

theorem chunksOf_small (K : Nat) (hK : K ≠ 0) (l : List ProxyRec) (hl : l ≠ [])
    (h : l.length ≤ K) : chunksOf K l = [l] := by
  rw [chunksOf, if_neg hK, if_neg hl]
  rw [List.take_of_length_le h, List.drop_eq_nil_of_le h, chunksOf_nil]

/-- Records reach the posted list only through a chunk whose
`_post_chunk_with_qrcodes` call returned `True`. -/
theorem postAllAux_mem (env : PostEnv) :
    ∀ (L : List (List ProxyRec)) (t c : Nat) (p : ProxyRec),
      p ∈ (postAllAux env t c L).1 →
      ∃ j, j < L.length ∧ p ∈ L.getD j [] ∧ postChunk env (c + j) (L.getD j []) = true := by
  intro L
  induction L with
  | nil => intro t c p h; simp [postAllAux] at h
  | cons chunk rest ih =>
    intro t c p h
    simp only [postAllAux] at h
    by_cases h1 : env.timeEx t = true
    · rw [if_pos h1] at h; simp at h
    · rw [if_neg h1] at h
      by_cases h2 : postChunk env c chunk = true
      · rw [if_pos h2] at h
        by_cases h3 : rest = []
        · rw [if_pos h3] at h
          exact ⟨0, by simp, by simpa using h, by simpa using h2⟩
        · rw [if_neg h3] at h
          by_cases h4 : env.timeEx (t + 1) = true
          · rw [if_pos h4] at h
            exact ⟨0, by simp, by simpa using h, by simpa using h2⟩
          · rw [if_neg h4] at h
            simp only [List.mem_append] at h
            rcases h with hc | hr
            · exact ⟨0, by simp, by simpa using hc, by simpa using h2⟩
            · obtain ⟨j, hj, hmem, hpost⟩ := ih (t + 2) (c + 1) p hr
              refine ⟨j + 1, by simpa using Nat.succ_lt_succ hj, by simpa using hmem, ?_⟩
              rw [show c + (j + 1) = c + 1 + j from by omega]
              simpa using hpost
      · rw [if_neg h2] at h
        obtain ⟨j, hj, hmem, hpost⟩ := ih (t + 1) (c + 1) p h
        refine ⟨j + 1, by simpa using Nat.succ_lt_succ hj, by simpa using hmem, ?_⟩
        rw [show c + (j + 1) = c + 1 + j from by omega]
        simpa using hpost

/-- An oracle environment in which QR generation and the album send always
succeed but every reply send fails with an HTTP error. -/
def replyFailEnv : PostEnv :=
  { timeEx := fun _ => false
    album := fun _ => AlbumOutcome.okResult
    reply := fun _ => ReplyOutcome.httpError
    qrOk := fun _ => true }

/-- C3 fails on the code: with the album send succeeding and the reply
send raising an HTTP error, `post_all` returns the empty posted list —
the chunk's records are NOT counted as posted, because both sends sit in
the same `try` block of `_post_chunk_with_qrcodes`. -/
theorem c3_counterexample :
    replyFailEnv.album 0 = AlbumOutcome.okResult
    ∧ replyFailEnv.reply 0 = ReplyOutcome.httpError
    ∧ (postAll replyFailEnv 10
        [ProxyRec.mk (some "1.1.1.1") (some 1) (some "s") (some "tg://x") none none none]).1
      = [] := by
  refine ⟨rfl, rfl, ?_⟩
  unfold postAll
  rw [if_neg (by decide), chunksOf_small 10 (by decide) _ (by decide) (by decide)]
  decide

/-- C3 amended.  A record appears in the list returned by `post_all` only
when its chunk's `_post_chunk_with_qrcodes` call returned `True`, which
requires BOTH the album send to succeed with a usable result AND the
reply send to succeed; an HTTP error at either step excludes the whole
chunk from the posted set. -/
theorem c3_amended_posted_needs_both_sends (env : PostEnv) (K : Nat) (ps : List ProxyRec)
    (p : ProxyRec) (h : p ∈ (postAll env K ps).1) :
    ∃ j, p ∈ (chunksOf K ps).getD j []
      ∧ postChunk env j ((chunksOf K ps).getD j []) = true
      ∧ env.album j = AlbumOutcome.okResult ∧ env.reply j = ReplyOutcome.ok := by
  unfold postAll at h
  by_cases hps : ps = []
  · rw [if_pos hps] at h; simp at h
  · rw [if_neg hps] at h
    obtain ⟨j, _, hmem, hpost⟩ := postAllAux_mem env (chunksOf K ps) 0 0 p h
    rw [Nat.zero_add] at hpost
    obtain ⟨-, -, ha, hr⟩ := (postChunk_eq_true_iff env j _).mp hpost
    exact ⟨j, hmem, hpost, ha, hr⟩

/-- An oracle environment in which every external call succeeds. -/
def allOkEnv : PostEnv :=
  { timeEx := fun _ => false
    album := fun _ => AlbumOutcome.okResult
    reply := fun _ => ReplyOutcome.ok
    qrOk := fun _ => true }

/-- Witness for C3's amended theorem: a record posted in a fully
successful run belongs to a chunk whose album and reply sends both
succeeded. -/
theorem c3_amended_witness :
    (ProxyRec.mk (some "1.1.1.1") (some 1) (some "s") (some "tg://x") none none none
      ∈ (postAll allOkEnv 10
          [ProxyRec.mk (some "1.1.1.1") (some 1) (some "s") (some "tg://x") none none none]).1)
    ∧ ∃ j, ProxyRec.mk (some "1.1.1.1") (some 1) (some "s") (some "tg://x") none none none
        ∈ (chunksOf 10 [ProxyRec.mk (some "1.1.1.1") (some 1) (some "s") (some "tg://x") none none none]).getD j []
      ∧ postChunk allOkEnv j
          ((chunksOf 10 [ProxyRec.mk (some "1.1.1.1") (some 1) (some "s") (some "tg://x") none none none]).getD j [])
        = true
      ∧ allOkEnv.album j = AlbumOutcome.okResult ∧ allOkEnv.reply j = ReplyOutcome.ok := by
  have hmem : ProxyRec.mk (some "1.1.1.1") (some 1) (some "s") (some "tg://x") none none none
      ∈ (postAll allOkEnv 10
          [ProxyRec.mk (some "1.1.1.1") (some 1) (some "s") (some "tg://x") none none none]).1 := by
    unfold postAll
    rw [if_neg (by decide), chunksOf_small 10 (by decide) _ (by decide) (by decide)]
    decide
  exact ⟨hmem, c3_amended_posted_needs_both_sends allOkEnv 10 _ _ hmem⟩

theorem chunksOf_length_aux (K : Nat) (hK : 0 < K) :
    ∀ (n : Nat) (l : List ProxyRec), l.length ≤ n →
      (chunksOf K l).length = (l.length + K - 1) / K := by
  intro n
  induction n with
  | zero =>
    intro l hl
    have h0 : l = [] := List.eq_nil_of_length_eq_zero (Nat.le_zero.mp hl)
    subst h0
    rw [chunksOf_nil]
    simp only [List.length_nil]
    rw [Nat.div_eq_of_lt (by omega)]
  | succ n ih =>
    intro l hl
    by_cases hnil : l = []
    · subst hnil
      rw [chunksOf_nil]
      simp only [List.length_nil]
      rw [Nat.div_eq_of_lt (by omega)]
    · rw [chunksOf, if_neg (by omega), if_neg hnil]
      have hpos : 0 < l.length := List.length_pos.mpr hnil
      rw [List.length_cons, ih (l.drop K) (by simp only [List.length_drop]; omega)]
      rw [List.length_drop]
      by_cases hle : l.length ≤ K
      · rw [show l.length - K = 0 from by omega]
        rw [Nat.div_eq_of_lt (by omega)]
        have hone : (l.length + K - 1) / K = 1 := Nat.div_eq_of_lt_le (by omega) (by omega)
        rw [hone]
      · rw [show l.length - K + K - 1 = l.length - 1 from by omega]
        rw [show l.length + K - 1 = (l.length - 1) + K from by omega]
        rw [Nat.add_div_right _ hK]

theorem chunksOf_length (K : Nat) (hK : 0 < K) (l : List ProxyRec) :
    (chunksOf K l).length = (l.length + K - 1) / K :=
  chunksOf_length_aux K hK l.length l (Nat.le_refl _)

/-- The chunk indices attempted along a trace, in order. -/
def attemptIdxs (evs : List PEvent) : List Nat :=
  evs.filterMap (fun e => match e with
    | PEvent.attempt i _ => some i
    | _ => none)

/-- With the time budget never exceeded, `post_all` attempts every chunk
exactly once, strictly in order. -/
theorem postAllAux_attempts_all (env : PostEnv) (htime : ∀ t, env.timeEx t = false) :
    ∀ (L : List (List ProxyRec)) (t c : Nat),
      attemptIdxs (postAllAux env t c L).2 = List.range' c L.length := by
  intro L
  induction L with
  | nil => intro t c; rfl
  | cons chunk rest ih =>
    intro t c
    simp only [postAllAux, htime t]
    rw [if_neg (by simp)]
    by_cases h2 : postChunk env c chunk = true
    · rw [if_pos h2]
      by_cases h3 : rest = []
      · subst h3
        simp [attemptIdxs, List.range']
      · rw [if_neg h3, htime (t + 1), if_neg (by simp)]
        simp only [attemptIdxs, List.filterMap_cons] at ih ⊢
        rw [ih (t + 2) (c + 1)]
        rw [List.length_cons, List.range'_succ]
    · rw [if_neg h2]
      simp only [attemptIdxs, List.filterMap_cons] at ih ⊢
      rw [ih (t + 1) (c + 1)]
      rw [List.length_cons, List.range'_succ]

theorem cons_eq_append_cons {α : Type} (a b : α) (xs pre post : List α)
    (h : a :: xs = pre ++ b :: post) :
    (pre = [] ∧ a = b ∧ xs = post) ∨ ∃ pre2, pre = a :: pre2 ∧ xs = pre2 ++ b :: post := by
  cases pre with
  | nil =>
    rw [List.nil_append] at h
    rw [List.cons.injEq] at h
    exact Or.inl ⟨rfl, h.1, h.2⟩
  | cons x pre2 =>
    rw [List.cons_append, List.cons.injEq] at h
    exact Or.inr ⟨pre2, by rw [h.1], h.2⟩

/-- Once a poll of the time budget returns `true`, the run of `post_all`
ends at once: nothing at all follows that event in the trace. -/
theorem postAllAux_poll_true_last (env : PostEnv) :
    ∀ (L : List (List ProxyRec)) (t c : Nat) (pre post : List PEvent),
      (postAllAux env t c L).2 = pre ++ PEvent.poll true :: post → post = [] := by
  intro L
  induction L with
  | nil =>
    intro t c pre post h
    simp only [postAllAux] at h
    exact absurd h.symm (by simp)
  | cons chunk rest ih =>
    intro t c pre post h
    simp only [postAllAux] at h
    by_cases h1 : env.timeEx t = true
    · rw [if_pos h1] at h
      rcases cons_eq_append_cons _ _ _ _ _ h with ⟨_, _, hx⟩ | ⟨pre2, _, hx⟩
      · exact hx.symm
      · exact absurd hx.symm (by simp)
    · rw [if_neg h1] at h
      by_cases h2 : postChunk env c chunk = true
      · rw [if_pos h2] at h
        by_cases h3 : rest = []
        · rw [if_pos h3] at h
          rcases cons_eq_append_cons _ _ _ _ _ h with ⟨_, hab, _⟩ | ⟨pre2, _, hx⟩
          · exact absurd hab (by simp)
          · rcases cons_eq_append_cons _ _ _ _ _ hx with ⟨_, hab, _⟩ | ⟨pre3, _, hx2⟩
            · exact absurd hab (by simp)
            · exact absurd hx2.symm (by simp)
        · rw [if_neg h3] at h
          by_cases h4 : env.timeEx (t + 1) = true
          · rw [if_pos h4] at h
            rcases cons_eq_append_cons _ _ _ _ _ h with ⟨_, hab, _⟩ | ⟨pre2, _, hx⟩
            · exact absurd hab (by simp)
            · rcases cons_eq_append_cons _ _ _ _ _ hx with ⟨_, hab, _⟩ | ⟨pre3, _, hx2⟩
              · exact absurd hab (by simp)
              · rcases cons_eq_append_cons _ _ _ _ _ hx2 with ⟨_, _, hx3⟩ | ⟨pre4, _, hx3⟩
                · exact hx3.symm
                · exact absurd hx3.symm (by simp)
          · rw [if_neg h4] at h
            rcases cons_eq_append_cons _ _ _ _ _ h with ⟨_, hab, _⟩ | ⟨pre2, _, hx⟩
            · exact absurd hab (by simp)
            · rcases cons_eq_append_cons _ _ _ _ _ hx with ⟨_, hab, _⟩ | ⟨pre3, _, hx2⟩
              · exact absurd hab (by simp)
              · rcases cons_eq_append_cons _ _ _ _ _ hx2 with ⟨_, hab, _⟩ | ⟨pre4, _, hx3⟩
                · exact absurd hab (by simp)
                · rcases cons_eq_append_cons _ _ _ _ _ hx3 with ⟨_, hab, _⟩ | ⟨pre5, _, hx4⟩
                  · exact absurd hab (by simp)
                  · exact ih (t + 2) (c + 1) pre5 post hx4
      · rw [if_neg h2] at h
        rcases cons_eq_append_cons _ _ _ _ _ h with ⟨_, hab, _⟩ | ⟨pre2, _, hx⟩
        · exact absurd hab (by simp)
        · rcases cons_eq_append_cons _ _ _ _ _ hx with ⟨_, hab, _⟩ | ⟨pre3, _, hx2⟩
          · exact absurd hab (by simp)
          · exact ih (t + 1) (c + 1) pre3 post hx2

/-- Every trace of the chunk loop is empty or starts with a budget poll. -/
theorem postAllAux_head (env : PostEnv) (L : List (List ProxyRec)) (t c : Nat) :
    (postAllAux env t c L).2 = []
      ∨ ∃ r rest2, (postAllAux env t c L).2 = PEvent.poll r :: rest2 := by
  cases L with
  | nil => exact Or.inl rfl
  | cons chunk rest =>
    simp only [postAllAux]
    by_cases h1 : env.timeEx t = true
    · rw [if_pos h1]; exact Or.inr ⟨true, _, rfl⟩
    · rw [if_neg h1]
      by_cases h2 : postChunk env c chunk = true
      · rw [if_pos h2]
        by_cases h3 : rest = []
        · rw [if_pos h3]; exact Or.inr ⟨false, _, rfl⟩
        · rw [if_neg h3]
          by_cases h4 : env.timeEx (t + 1) = true
          · rw [if_pos h4]; exact Or.inr ⟨false, _, rfl⟩
          · rw [if_neg h4]; exact Or.inr ⟨false, _, rfl⟩
      · rw [if_neg h2]; exact Or.inr ⟨false, _, rfl⟩

/-- After a failed chunk attempt the loop moves straight on: the next
event, if any, is the next iteration's budget poll, never a sleep. -/
theorem postAllAux_no_sleep_after_fail (env : PostEnv) :
    ∀ (L : List (List ProxyRec)) (t c : Nat) (pre post : List PEvent) (i : Nat),
      (postAllAux env t c L).2 = pre ++ PEvent.attempt i false :: post →
      post = [] ∨ ∃ r rest2, post = PEvent.poll r :: rest2 := by
  intro L
  induction L with
  | nil =>
    intro t c pre post i h
    simp only [postAllAux] at h
    exact absurd h.symm (by simp)
  | cons chunk rest ih =>
    intro t c pre post i h
    simp only [postAllAux] at h
    by_cases h1 : env.timeEx t = true
    · rw [if_pos h1] at h
      rcases cons_eq_append_cons _ _ _ _ _ h with ⟨_, hab, _⟩ | ⟨pre2, _, hx⟩
      · exact absurd hab (by simp)
      · exact absurd hx.symm (by simp)
    · rw [if_neg h1] at h
      by_cases h2 : postChunk env c chunk = true
      · rw [if_pos h2] at h
        by_cases h3 : rest = []
        · rw [if_pos h3] at h
          rcases cons_eq_append_cons _ _ _ _ _ h with ⟨_, hab, _⟩ | ⟨pre2, _, hx⟩
          · exact absurd hab (by simp)
          · rcases cons_eq_append_cons _ _ _ _ _ hx with ⟨_, hab, _⟩ | ⟨pre3, _, hx2⟩
            · exact absurd hab (by simp)
            · exact absurd hx2.symm (by simp)
        · rw [if_neg h3] at h
          by_cases h4 : env.timeEx (t + 1) = true
          · rw [if_pos h4] at h
            rcases cons_eq_append_cons _ _ _ _ _ h with ⟨_, hab, _⟩ | ⟨pre2, _, hx⟩
            · exact absurd hab (by simp)
            · rcases cons_eq_append_cons _ _ _ _ _ hx with ⟨_, hab, _⟩ | ⟨pre3, _, hx2⟩
              · exact absurd hab (by simp)
              · rcases cons_eq_append_cons _ _ _ _ _ hx2 with ⟨_, hab, _⟩ | ⟨pre4, _, hx3⟩
                · exact absurd hab (by simp)
                · exact absurd hx3.symm (by simp)
          · rw [if_neg h4] at h
            rcases cons_eq_append_cons _ _ _ _ _ h with ⟨_, hab, _⟩ | ⟨pre2, _, hx⟩
            · exact absurd hab (by simp)
            · rcases cons_eq_append_cons _ _ _ _ _ hx with ⟨_, hab, _⟩ | ⟨pre3, _, hx2⟩
              · exact absurd hab (by simp)
              · rcases cons_eq_append_cons _ _ _ _ _ hx2 with ⟨_, hab, _⟩ | ⟨pre4, _, hx3⟩
                · exact absurd hab (by simp)
                · rcases cons_eq_append_cons _ _ _ _ _ hx3 with ⟨_, hab, _⟩ | ⟨pre5, _, hx4⟩
                  · exact absurd hab (by simp)
                  · exact ih (t + 2) (c + 1) pre5 post i hx4
      · rw [if_neg h2] at h
        rcases cons_eq_append_cons _ _ _ _ _ h with ⟨_, hab, _⟩ | ⟨pre2, _, hx⟩
        · exact absurd hab (by simp)
        · rcases cons_eq_append_cons _ _ _ _ _ hx with ⟨_, _, hx2⟩ | ⟨pre3, _, hx2⟩
          · rw [← hx2]
            exact postAllAux_head env rest (t + 1) (c + 1)
          · exact ih (t + 1) (c + 1) pre3 post i hx2

/-- A sleep happens only right after a successful attempt on a chunk that
is not the last one (the success attempt and the pre-sleep poll directly
precede it in the trace). -/
theorem postAllAux_wait_context (env : PostEnv) :
    ∀ (L : List (List ProxyRec)) (t c : Nat) (pre post : List PEvent),
      (postAllAux env t c L).2 = pre ++ PEvent.wait :: post →
      ∃ pre2 i, pre = pre2 ++ [PEvent.attempt i true, PEvent.poll false]
        ∧ i + 1 < c + L.length := by
  intro L
  induction L with
  | nil =>
    intro t c pre post h
    simp only [postAllAux] at h
    exact absurd h.symm (by simp)
  | cons chunk rest ih =>
    intro t c pre post h
    simp only [postAllAux] at h
    by_cases h1 : env.timeEx t = true
    · rw [if_pos h1] at h
      rcases cons_eq_append_cons _ _ _ _ _ h with ⟨_, hab, _⟩ | ⟨pre2, _, hx⟩
      · exact absurd hab (by simp)
      · exact absurd hx.symm (by simp)
    · rw [if_neg h1] at h
      by_cases h2 : postChunk env c chunk = true
      · rw [if_pos h2] at h
        by_cases h3 : rest = []
        · rw [if_pos h3] at h
          rcases cons_eq_append_cons _ _ _ _ _ h with ⟨_, hab, _⟩ | ⟨pre2, _, hx⟩
          · exact absurd hab (by simp)
          · rcases cons_eq_append_cons _ _ _ _ _ hx with ⟨_, hab, _⟩ | ⟨pre3, _, hx2⟩
            · exact absurd hab (by simp)
            · exact absurd hx2.symm (by simp)
        · rw [if_neg h3] at h
          by_cases h4 : env.timeEx (t + 1) = true
          · rw [if_pos h4] at h
            rcases cons_eq_append_cons _ _ _ _ _ h with ⟨_, hab, _⟩ | ⟨pre2, hpre, hx⟩
            · exact absurd hab (by simp)
            · rcases cons_eq_append_cons _ _ _ _ _ hx with ⟨_, hab, _⟩ | ⟨pre3, hpre2, hx2⟩
              · exact absurd hab (by simp)
              · rcases cons_eq_append_cons _ _ _ _ _ hx2 with ⟨_, hab, _⟩ | ⟨pre4, hpre3, hx3⟩
                · exact absurd hab (by simp)
                · exact absurd hx3.symm (by simp)
          · rw [if_neg h4] at h
            have hlen : 1 ≤ rest.length :=
              List.length_pos.mpr h3
            rcases cons_eq_append_cons _ _ _ _ _ h with ⟨_, hab, _⟩ | ⟨pre2, hpre, hx⟩
            · exact absurd hab (by simp)
            · rcases cons_eq_append_cons _ _ _ _ _ hx with ⟨_, hab, _⟩ | ⟨pre3, hpre2, hx2⟩
              · exact absurd hab (by simp)
              · rcases cons_eq_append_cons _ _ _ _ _ hx2 with ⟨_, hab, _⟩ | ⟨pre4, hpre3, hx3⟩
                · exact absurd hab (by simp)
                · rcases cons_eq_append_cons _ _ _ _ _ hx3 with ⟨hp4, _, hx4⟩ | ⟨pre5, hpre4, hx4⟩
                  · refine ⟨[PEvent.poll false], c, ?_, ?_⟩
                    · rw [hpre, hpre2, hpre3, hp4]
                      rfl
                    · rw [List.length_cons]
                      omega
                  · obtain ⟨pre6, i, hpre5, hbound⟩ := ih (t + 2) (c + 1) pre5 post hx4
                    refine ⟨PEvent.poll false :: PEvent.attempt c true :: PEvent.poll false
                        :: PEvent.wait :: pre6, i, ?_, ?_⟩
                    · rw [hpre, hpre2, hpre3, hpre4, hpre5]
                      rfl
                    · rw [List.length_cons]
                      omega
      · rw [if_neg h2] at h
        rcases cons_eq_append_cons _ _ _ _ _ h with ⟨_, hab, _⟩ | ⟨pre2, hpre, hx⟩
        · exact absurd hab (by simp)
        · rcases cons_eq_append_cons _ _ _ _ _ hx with ⟨_, hab, _⟩ | ⟨pre3, hpre2, hx2⟩
          · exact absurd hab (by simp)
          · obtain ⟨pre4, i, hpre3, hbound⟩ := ih (t + 1) (c + 1) pre3 post hx2
            refine ⟨PEvent.poll false :: PEvent.attempt c false :: pre4, i, ?_, ?_⟩
            · rw [hpre, hpre2, hpre3]
              rfl
            · rw [List.length_cons]
              omega

/-- C9.  For `N` accepted records and chunk size `K > 0`: with the budget
never exceeded, `post_all` attempts exactly `ceil(N / K)` chunks in input
order; a poll returning `true` is the last event of the trace (remaining
chunks never attempted, not marked failed); a failed attempt is followed
directly by the next poll or by nothing (no sleep); and every sleep is
directly preceded by a successful attempt on a non-last chunk and its
pre-sleep poll. -/
theorem c9_chunk_schedule (env : PostEnv) (K : Nat) (ps : List ProxyRec) (hK : 0 < K) :
    ((∀ t, env.timeEx t = false) →
      attemptIdxs (postAll env K ps).2 = List.range ((ps.length + K - 1) / K))
    ∧ (∀ pre post, (postAll env K ps).2 = pre ++ PEvent.poll true :: post → post = [])
    ∧ (∀ pre post i, (postAll env K ps).2 = pre ++ PEvent.attempt i false :: post →
        post = [] ∨ ∃ r rest2, post = PEvent.poll r :: rest2)
    ∧ (∀ pre post, (postAll env K ps).2 = pre ++ PEvent.wait :: post →
        ∃ pre2 i, pre = pre2 ++ [PEvent.attempt i true, PEvent.poll false]
          ∧ i + 1 < (ps.length + K - 1) / K) := by
  by_cases hps : ps = []
  · subst hps
    unfold postAll
    rw [if_pos rfl]
    refine ⟨?_, ?_, ?_, ?_⟩
    · intro _
      rw [show ((List.length ([] : List ProxyRec)) + K - 1) / K = 0 from by
        simp only [List.length_nil]; exact Nat.div_eq_of_lt (by omega)]
      rfl
    · intro pre post h; exact absurd h.symm (by simp)
    · intro pre post i h; exact absurd h.symm (by simp)
    · intro pre post h; exact absurd h.symm (by simp)
  · unfold postAll
    rw [if_neg hps]
    have hlen := chunksOf_length K hK ps
    refine ⟨?_, ?_, ?_, ?_⟩
    · intro htime
      rw [postAllAux_attempts_all env htime (chunksOf K ps) 0 0, hlen,
        ← List.range_eq_range']
    · exact fun pre post h => postAllAux_poll_true_last env (chunksOf K ps) 0 0 pre post h
    · exact fun pre post i h => postAllAux_no_sleep_after_fail env (chunksOf K ps) 0 0 pre post i h
    · intro pre post h
      obtain ⟨pre2, i, hpre, hbound⟩ := postAllAux_wait_context env (chunksOf K ps) 0 0 pre post h
      exact ⟨pre2, i, hpre, by rw [← hlen]; omega⟩

def pA : ProxyRec := ProxyRec.mk (some "1.1.1.1") (some 1) (some "a") (some "tg://a") none none none

def pB : ProxyRec := ProxyRec.mk (some "2.2.2.2") (some 2) (some "b") (some "tg://b") none none none

def pC : ProxyRec := ProxyRec.mk (some "3.3.3.3") (some 3) (some "c") (some "tg://c") none none none

/-- Witness for C9: three records with chunk size 2 under an
always-succeeding environment. -/
theorem c9_witness :
    (0 < 2)
    ∧ (((∀ t, allOkEnv.timeEx t = false) →
          attemptIdxs (postAll allOkEnv 2 [pA, pB, pC]).2
            = List.range (([pA, pB, pC].length + 2 - 1) / 2))
      ∧ (∀ pre post, (postAll allOkEnv 2 [pA, pB, pC]).2 = pre ++ PEvent.poll true :: post
          → post = [])
      ∧ (∀ pre post i, (postAll allOkEnv 2 [pA, pB, pC]).2 = pre ++ PEvent.attempt i false :: post
          → post = [] ∨ ∃ r rest2, post = PEvent.poll r :: rest2)
      ∧ (∀ pre post, (postAll allOkEnv 2 [pA, pB, pC]).2 = pre ++ PEvent.wait :: post →
          ∃ pre2 i, pre = pre2 ++ [PEvent.attempt i true, PEvent.poll false]
            ∧ i + 1 < ([pA, pB, pC].length + 2 - 1) / 2)) :=
  ⟨by decide, c9_chunk_schedule allOkEnv 2 [pA, pB, pC] (by decide)⟩

theorem postChunk_nil_false (env : PostEnv) (c : Nat) : postChunk env c [] = false := by
  unfold postChunk
  rw [if_pos rfl]

/-- With the budget never exceeded, every record of a chunk whose post
succeeded is in the posted list — `posted_proxies.extend(chunk)` at line
507 appends the whole chunk. -/
theorem postAllAux_success_chunk_subset (env : PostEnv) (htime : ∀ t, env.timeEx t = false) :
    ∀ (L : List (List ProxyRec)) (t c j : Nat),
      postChunk env (c + j) (L.getD j []) = true →
      ∀ p ∈ L.getD j [], p ∈ (postAllAux env t c L).1 := by
  intro L
  induction L with
  | nil =>
    intro t c j h
    rw [List.getD_nil, postChunk_nil_false] at h
    exact absurd h (by simp)
  | cons chunk rest ih =>
    intro t c j h p hp
    simp only [postAllAux, htime t]
    rw [if_neg (by simp)]
    cases j with
    | zero =>
      rw [List.getD_cons_zero] at h hp
      rw [Nat.add_zero] at h
      rw [if_pos h]
      by_cases h3 : rest = []
      · rw [if_pos h3]
        exact hp
      · rw [if_neg h3, htime (t + 1), if_neg (by simp)]
        exact List.mem_append_left _ hp
    | succ j =>
      rw [List.getD_cons_succ] at h hp
      have h2 : postChunk env (c + 1 + j) (rest.getD j []) = true := by
        rw [show c + 1 + j = c + (j + 1) from by omega]
        exact h
      by_cases hc : postChunk env c chunk = true
      · rw [if_pos hc]
        by_cases h3 : rest = []
        · subst h3
          rw [List.getD_nil] at hp
          exact absurd hp (by simp)
        · rw [if_neg h3, htime (t + 1), if_neg (by simp)]
          exact List.mem_append_right _ (ih (t + 2) (c + 1) j h2 p hp)
      · rw [if_neg hc]
        exact ih (t + 1) (c + 1) j h2 p hp

/-- Every link inserted while building the dict stays among its keys. -/
theorem mem_keys_foldl_dictInsert :
    ∀ (rs : List ProxyRec) (d : List (Option String × ProxyRec)) (k : Option String),
      (k ∈ d.map Prod.fst ∨ ∃ r ∈ rs, r.tg_link = k) →
      k ∈ (rs.foldl (fun d r => dictInsert r.tg_link r d) d).map Prod.fst := by
  intro rs
  induction rs with
  | nil =>
    intro d k h
    rcases h with h | ⟨r, hr, _⟩
    · simpa using h
    · simp at hr
  | cons r rs ih =>
    intro d k h
    rw [List.foldl_cons]
    apply ih
    rcases h with h | ⟨r2, hr2, hk⟩
    · exact Or.inl ((mem_keys_dictInsert _ _ _ _).mpr (Or.inr h))
    · rcases List.mem_cons.mp hr2 with rfl | hr3
      · exact Or.inl ((mem_keys_dictInsert _ _ _ _).mpr (Or.inl hk.symm))
      · exact Or.inr ⟨r2, hr3, hk⟩

/-- Every posted record leaves an entry under its link in the merged
archive. -/
theorem mergeArchive_mem_link (existing posted : List ProxyRec) (r : ProxyRec)
    (hr : r ∈ posted) :
    ∃ q ∈ mergeArchive existing posted, q.tg_link = r.tg_link := by
  have hkey : r.tg_link ∈ (buildByLink (existing ++ posted)).map Prod.fst :=
    mem_keys_foldl_dictInsert (existing ++ posted) [] r.tg_link
      (Or.inr ⟨r, List.mem_append_right _ hr, rfl⟩)
  obtain ⟨e, he, hek⟩ := List.mem_map.mp hkey
  have hcons := buildByLink_consistent (existing ++ posted) e he
  exact ⟨e.2, List.mem_map.mpr ⟨e, he, rfl⟩, by rw [hcons, hek]⟩

/-- A record with a truthy link contributes that link to the loaded
archive link set. -/
theorem archiveLinks_mem (rs : List ProxyRec) (q : ProxyRec) (l : String)
    (hq : q ∈ rs) (hl : q.tg_link = some l) (hne : l ≠ "") :
    l ∈ archiveLinks rs := by
  unfold archiveLinks
  apply List.mem_filterMap.mpr
  refine ⟨q, hq, ?_⟩
  rw [hl]
  simp [hne]

/-- Every record accepted by `find_new_proxies` carries a link absent
from the archive's link set. -/
theorem findAux_link_not_archived (archived : List String) :
    ∀ (ps : List ProxyRec) (seen : List String) (q : ProxyRec),
      q ∈ findAux archived seen ps → ∃ l, q.tg_link = some l ∧ l ∉ archived := by
  intro ps
  induction ps with
  | nil => intro seen q h; simp [findAux] at h
  | cons p ps ih =>
    intro seen q h
    rcases hl : (sanitizeRecord p).tg_link with _ | l
    · simp only [findAux, hl] at h
      exact ih seen q h
    · simp only [findAux, hl] at h
      by_cases he : l = ""
      · rw [if_pos he] at h; exact ih seen q h
      · rw [if_neg he] at h
        by_cases hm : (decide (l ∈ archived) || decide (l ∈ seen)) = true
        · rw [if_pos hm] at h; exact ih seen q h
        · rw [if_neg hm] at h
          rcases List.mem_cons.mp h with rfl | h2
          · refine ⟨l, hl, fun hla => hm (by simp [hla])⟩
          · exact ih (l :: seen) q h2

/-- C10.  When QR generation fails for a record of a chunk but the chunk
still produces at least one QR image and both sends succeed (budget never
exceeded), the QR-failed record is included in the posted list returned
by `post_all`, its link reaches the merged archive's link set, and no
record of any future `find_new_proxies` run can carry that link. -/
theorem c10_qr_failed_record_still_posted (env : PostEnv) (K : Nat)
    (ps old future : List ProxyRec) (i : Nat) (r : ProxyRec)
    (htime : ∀ t, env.timeEx t = false)
    (hmem : r ∈ (chunksOf K ps).getD i [])
    (hlink : strTruthy r.tg_link = true)
    (_hqr : qrGenerate env.qrOk (r.tg_link.getD "") = false)
    (hmedia : mediaItems env ((chunksOf K ps).getD i []) ≠ [])
    (halbum : env.album i = AlbumOutcome.okResult)
    (hreply : env.reply i = ReplyOutcome.ok) :
    r ∈ (postAll env K ps).1
    ∧ r.tg_link.getD "" ∈ archiveLinks (mergeArchive old (postAll env K ps).1)
    ∧ ∀ q ∈ findNewProxies (archiveLinks (mergeArchive old (postAll env K ps).1)) future,
        q.tg_link ≠ r.tg_link := by
  have hchunk_ne : (chunksOf K ps).getD i [] ≠ [] := by
    intro h0; rw [h0] at hmem; simp at hmem
  have hpost : postChunk env i ((chunksOf K ps).getD i []) = true :=
    (postChunk_eq_true_iff env i _).mpr ⟨hchunk_ne, hmedia, halbum, hreply⟩
  have hps : ps ≠ [] := by
    intro h0
    subst h0
    rw [chunksOf_nil, List.getD_nil] at hmem
    simp at hmem
  have hposted : r ∈ (postAll env K ps).1 := by
    unfold postAll
    rw [if_neg hps]
    exact postAllAux_success_chunk_subset env htime (chunksOf K ps) 0 0 i
      (by rw [Nat.zero_add]; exact hpost) r hmem
  obtain ⟨lr, hlr, hlrne⟩ : ∃ l, r.tg_link = some l ∧ l ≠ "" := by
    rcases hr : r.tg_link with _ | s
    · rw [hr] at hlink; simp [strTruthy] at hlink
    · rw [hr] at hlink
      refine ⟨s, rfl, ?_⟩
      simpa [strTruthy] using hlink
  obtain ⟨q0, hq0, hq0l⟩ := mergeArchive_mem_link old (postAll env K ps).1 r hposted
  have hgetD : r.tg_link.getD "" = lr := by rw [hlr]; rfl
  have harch : lr ∈ archiveLinks (mergeArchive old (postAll env K ps).1) :=
    archiveLinks_mem _ q0 lr hq0 (by rw [hq0l, hlr]) hlrne
  refine ⟨hposted, by rw [hgetD]; exact harch, ?_⟩
  intro q hq hcontra
  obtain ⟨lq, hlq, hlqn⟩ := findAux_link_not_archived _ future [] q hq
  have heq : some lq = some lr := by rw [← hlq, hcontra, hlr]
  have hll : lq = lr := by injection heq
  exact hlqn (by rw [hll]; exact harch)

/-- An environment in which everything succeeds except QR generation for
the data string `"tg://bad"`. -/
def qrFailEnv : PostEnv :=
  { timeEx := fun _ => false
    album := fun _ => AlbumOutcome.okResult
    reply := fun _ => ReplyOutcome.ok
    qrOk := fun s => !(s == "tg://bad") }

def rBad : ProxyRec := ProxyRec.mk (some "9.9.9.9") (some 9) (some "x") (some "tg://bad") none none none

def rGood : ProxyRec := ProxyRec.mk (some "8.8.8.8") (some 8) (some "y") (some "tg://good") none none none

/-- Witness for C10: `rBad`'s QR generation fails, `rGood`'s succeeds, the
chunk is posted, and `rBad` is archived and never reaccepted. -/
theorem c10_witness :
    ((∀ t, qrFailEnv.timeEx t = false)
      ∧ rBad ∈ (chunksOf 10 [rBad, rGood]).getD 0 []
      ∧ strTruthy rBad.tg_link = true
      ∧ qrGenerate qrFailEnv.qrOk (rBad.tg_link.getD "") = false
      ∧ mediaItems qrFailEnv ((chunksOf 10 [rBad, rGood]).getD 0 []) ≠ []
      ∧ qrFailEnv.album 0 = AlbumOutcome.okResult
      ∧ qrFailEnv.reply 0 = ReplyOutcome.ok)
    ∧ (rBad ∈ (postAll qrFailEnv 10 [rBad, rGood]).1
      ∧ rBad.tg_link.getD "" ∈ archiveLinks (mergeArchive [] (postAll qrFailEnv 10 [rBad, rGood]).1)
      ∧ ∀ q ∈ findNewProxies (archiveLinks (mergeArchive [] (postAll qrFailEnv 10 [rBad, rGood]).1)) [rBad],
          q.tg_link ≠ rBad.tg_link) := by
  have hch : chunksOf 10 [rBad, rGood] = [[rBad, rGood]] :=
    chunksOf_small 10 (by decide) _ (by decide) (by decide)
  refine ⟨⟨fun _ => rfl, ?_, by decide, by decide, ?_, rfl, rfl⟩, ?_⟩
  · rw [hch]; decide
  · rw [hch]; decide
  · exact c10_qr_failed_record_still_posted qrFailEnv 10 [rBad, rGood] [] [rBad] 0 rBad
      (fun _ => rfl) (by rw [hch]; decide) (by decide) (by decide)
      (by rw [hch]; decide) rfl rfl

end TGPub
